import Mathlib

/-!
Verification of the OS simulator (`os_sim.py`): contiguous first-fit memory
allocator with coalescing free, process registry and lifecycle operations,
and the MLFQ round-robin scheduler.  Python's mutable globals are embedded
as explicit state records; `time.time()` and `random` calls become explicit
`now` parameters and an oracle of decision functions.
-/

namespace OsSim

/-- A free-list or allocated extent `(start, size)`, as in the Python tuples. -/
abbrev Ext := Nat × Nat

/-- `MEMORY_SIZE = 1024` units. -/
def MEMORY_SIZE : Nat := 1024

/-- Sum of the sizes of a list of extents. -/
def sumExt (l : List Ext) : Nat := (l.map (fun e => e.2)).sum

/-- Remove the first occurrence of `x`, Python's `list.remove` (a no-op when
`x` is absent, where Python would raise; the raising path is unreachable in
the simulator). -/
def removeFirst {α : Type} [DecidableEq α] (x : α) : List α → List α
  | [] => []
  | y :: ys => if y = x then ys else y :: removeFirst x ys

/-- Scan loop of `allocate_memory`: first-fit over the free list.  Returns the
allocated extent and the updated free list, or `none` when no extent fits. -/
def allocLoop (size : Nat) : List Ext → Option (Ext × List Ext)
  | [] => none
  | (start, sz) :: rest =>
    if size ≤ sz then
      some ((start, size), if sz = size then rest else (start + size, sz - size) :: rest)
    else
      (allocLoop size rest).map (fun r => (r.1, (start, sz) :: r.2))

/-- `allocate_memory(size)`: first-fit allocation from the free list.  Returns
the block (or `none`) together with the resulting free list (unchanged on
failure, matching the Python function which mutates nothing when it fails). -/
def allocate_memory (size : Nat) (fl : List Ext) : Option Ext × List Ext :=
  match allocLoop size fl with
  | none => (none, fl)
  | some (b, fl') => (some b, fl')

/-- Lexicographic `≤` on pairs, the order used by Python's `list.sort()`
on `(start, size)` tuples.  This order is total and antisymmetric, so the
sorted permutation of a list is unique and any correct sorting algorithm
computes exactly what Python's stable sort computes. -/
def extLeP (a b : Ext) : Prop := a.1 < b.1 ∨ (a.1 = b.1 ∧ a.2 ≤ b.2)

instance : DecidableRel extLeP := fun a b =>
  inferInstanceAs (Decidable (a.1 < b.1 ∨ (a.1 = b.1 ∧ a.2 ≤ b.2)))

instance : IsTotal Ext extLeP := by
  constructor
  intro a b
  obtain ⟨a1, a2⟩ := a
  obtain ⟨b1, b2⟩ := b
  simp only [extLeP]
  omega

instance : IsTrans Ext extLeP := by
  constructor
  intro a b c hab hbc
  obtain ⟨a1, a2⟩ := a
  obtain ⟨b1, b2⟩ := b
  obtain ⟨c1, c2⟩ := c
  simp only [extLeP] at *
  omega

/-- The coalescing sweep of `free_memory`: walk the sorted list keeping a
current extent, merging exactly adjacent neighbours. -/
def coalesceLoop : Ext → List Ext → List Ext
  | (cs, cz), [] => [(cs, cz)]
  | (cs, cz), (s, z) :: rest =>
    if cs + cz = s then coalesceLoop (cs, cz + z) rest
    else (cs, cz) :: coalesceLoop (s, z) rest

/-- `free_memory(block)`: `None` is a no-op; otherwise append the block to the
free list, sort by start (lexicographically, as Python does), and coalesce. -/
def free_memory (fl : List Ext) (block : Option Ext) : List Ext :=
  match block with
  | none => fl
  | some b =>
    match List.insertionSort extLeP (fl ++ [b]) with
    | [] => []
    | c :: t => coalesceLoop c t

/-- One step of a well-formed allocate/free trace: state is (free list,
outstanding allocated extents); a free call only frees a previously allocated,
not yet freed extent. -/
inductive MemStep : List Ext × List Ext → List Ext × List Ext → Prop
  | allocOk (size : Nat) (fl al fl' : List Ext) (b : Ext)
      (h : allocate_memory size fl = (some b, fl')) :
      MemStep (fl, al) (fl', b :: al)
  | allocFail (size : Nat) (fl al fl' : List Ext)
      (h : allocate_memory size fl = (none, fl')) :
      MemStep (fl, al) (fl', al)
  | freeStep (fl al : List Ext) (b : Ext) (h : b ∈ al) :
      MemStep (fl, al) (free_memory fl (some b), removeFirst b al)

/-- Initial allocator state: the whole address space free, nothing allocated. -/
def memInit : List Ext × List Ext := ([(0, MEMORY_SIZE)], [])

-- Canonical free-list theory, used to settle the coalescing claims.
/-- Strict gap between extents: `a` ends strictly before `b` starts. -/
def gapLt (a b : Ext) : Prop := a.1 + a.2 < b.1

/-- Non-overlap with possible adjacency: `a` ends at or before `b` starts. -/
def gapLe (a b : Ext) : Prop := a.1 + a.2 ≤ b.1

/-- Two extents are disjoint as address intervals. -/
def extDisj (a b : Ext) : Prop := a.1 + a.2 ≤ b.1 ∨ b.1 + b.2 ≤ a.1

/-- Address `x` lies inside one of the extents of `l`. -/
def covers (l : List Ext) (x : Nat) : Prop := ∃ e ∈ l, e.1 ≤ x ∧ x < e.1 + e.2

/-- A canonical free list: extents sorted with strict gaps (no overlap, no
adjacency left to merge) and positive sizes.  `free_memory` maintains this. -/
def canonical (l : List Ext) : Prop :=
  List.Pairwise gapLt l ∧ ∀ e ∈ l, 0 < e.2

-- Process registry, lifecycle operations and the MLFQ scheduler.
/-- Process states, the Python string constants. -/
inductive PState
  | ready
  | running
  | blocked
  | terminated
deriving DecidableEq

/-- The `Process` dataclass.  `time.time()` timestamps are modelled as `Nat`
values supplied by explicit `now` parameters / the oracle clock. -/
structure Process where
  pid : Nat
  name : String
  burst : Int
  original_burst : Int
  priority : Int
  state : PState
  memory_block : Option Ext
  io_wait : Int
  arrived_at : Nat
  finished_at : Option Nat
  last_queue_level : Nat
deriving DecidableEq

/-- The global mutable state of the simulator: free list, process table
(in dict insertion order), the three ready queues (level 0 to 2), the
blocked pid list and the pid counter. -/
structure Sys where
  freeList : List Ext
  table : List (Nat × Process)
  queues : List (List Nat)
  blocked : List Nat
  nextPid : Nat
deriving DecidableEq

/-- `process_table.get(pid)`. -/
def lookupTable (pid : Nat) : List (Nat × Process) → Option Process
  | [] => none
  | (k, p) :: rest => if k = pid then some p else lookupTable pid rest

/-- In-place mutation of the process object stored under `pid` (Python
mutates the record through the dict reference). -/
def tableSet (pid : Nat) (p : Process) : List (Nat × Process) → List (Nat × Process)
  | [] => []
  | (k, q) :: rest => if k = pid then (k, p) :: rest else (k, q) :: tableSet pid p rest

/-- `READY_QUEUES[i].put(pid)`. -/
def enqueueAt (i : Nat) (pid : Nat) (qs : List (List Nat)) : List (List Nat) :=
  qs.set i (qs.getD i [] ++ [pid])

/-- The initial simulator state: whole memory free, no processes, three
empty ready queues, empty blocked list, pid counter at 1. -/
def emptySys : Sys :=
  { freeList := [(0, MEMORY_SIZE)], table := [], queues := [[], [], []],
    blocked := [], nextPid := 1 }

/-- `QUANTA = [4, 8, 16]`. -/
def QUANTA : List Nat := [4, 8, 16]

/-- `create_process(name, burst, priority)` at wall-clock `now`: fresh pid,
state READY, enqueued at the tail of ready queue level 0. -/
def create_process (name : String) (burst priority : Int) (now : Nat) (s : Sys) :
    Nat × Sys :=
  let pid := s.nextPid
  let p : Process :=
    { pid := pid, name := name, burst := burst, original_burst := burst,
      priority := priority, state := .ready, memory_block := none, io_wait := 0,
      arrived_at := now, finished_at := none, last_queue_level := 0 }
  (pid, { s with table := s.table ++ [(pid, p)],
                 queues := enqueueAt 0 pid s.queues,
                 nextPid := pid + 1 })

/-- `kill_process(pid)` at wall-clock `now`: unknown pid fails; otherwise set
TERMINATED with a fresh finish timestamp, free the memory block if any, and
remove the pid (first occurrence) from the blocked list if present. -/
def kill_process (pid now : Nat) (s : Sys) : Bool × Sys :=
  match lookupTable pid s.table with
  | none => (false, s)
  | some p =>
    let p1 := { p with state := .terminated, finished_at := some now }
    match p1.memory_block with
    | some b =>
      (true, { s with table := tableSet pid { p1 with memory_block := none } s.table,
                      freeList := free_memory s.freeList (some b),
                      blocked := removeFirst pid s.blocked })
    | none =>
      (true, { s with table := tableSet pid p1 s.table,
                      blocked := removeFirst pid s.blocked })

/-- `block_process(pid, io_time)`: unknown pid or TERMINATED fails; otherwise
set BLOCKED, reset the wait counter, and append the pid to the blocked list
(unconditionally — even if already present). -/
def block_process (pid : Nat) (io_time : Int) (s : Sys) : Bool × Sys :=
  match lookupTable pid s.table with
  | none => (false, s)
  | some p =>
    if p.state = .terminated then (false, s)
    else
      (true,
       { s with table := tableSet pid { p with state := .blocked, io_wait := io_time } s.table,
                blocked := s.blocked ++ [pid] })

/-- Body of `unblock_tick`: iterate over a snapshot of the blocked list,
decrement each process's `io_wait`, and move processes whose wait reached 0
to ready queue level 0. -/
def unblockLoop : List Nat → Sys → Sys
  | [], s => s
  | pid :: rest, s =>
    match lookupTable pid s.table with
    | none => unblockLoop rest { s with blocked := removeFirst pid s.blocked }
    | some p =>
      let p1 := { p with io_wait := p.io_wait - 1 }
      if p1.io_wait ≤ 0 then
        unblockLoop rest
          { s with table := tableSet pid { p1 with state := .ready } s.table,
                   blocked := removeFirst pid s.blocked,
                   queues := enqueueAt 0 pid s.queues }
      else
        unblockLoop rest { s with table := tableSet pid p1 s.table }

/-- `unblock_tick()`. -/
def unblock_tick (s : Sys) : Sys := unblockLoop s.blocked s

/-- The external nondeterminism of one scheduler run: `blockAt t` is the
outcome of `random.random() < 0.05` at global tick `t` (ticks strictly
increase, so indexing samples by tick is faithful), `ioTicks t` the
`random.randint(2,5)` sample, `time t` the wall clock at tick `t`. -/
structure Oracle where
  blockAt : Nat → Bool
  ioTicks : Nat → Int
  time : Nat → Nat

/-- Scheduler-loop state: simulator state, global tick counter, and the
statistics dict accumulated so far. -/
structure Sched where
  sys : Sys
  tick : Nat
  stats : List (Nat × (Int × String × Int))
deriving DecidableEq

/-- The selection scan of `run_scheduler` (lines 207-217): pop the head of
the first (highest-priority) non-empty ready queue, returning the pid, the
level and the updated queues. -/
def pickReady : List (List Nat) → Option (Nat × Nat × List (List Nat))
  | [] => none
  | [] :: qs => (pickReady qs).map (fun r => (r.1, r.2.1 + 1, [] :: r.2.2))
  | (pid :: rest) :: qs => some (pid, 0, rest :: qs)

/-- One stats-dict entry: turnaround (`finished_at - arrived_at`, 0 when no
finish time), name, original burst. -/
def statEntry (p : Process) : Int × String × Int :=
  (match p.finished_at with
   | some f => (f : Int) - (p.arrived_at : Int)
   | none => 0, p.name, p.original_burst)

/-- `pid in stats`. -/
def lookupStat (pid : Nat) : List (Nat × (Int × String × Int)) → Bool
  | [] => false
  | (k, _) :: rest => if k = pid then true else lookupStat pid rest

/-- The stats-collection sweep at the end of each scheduler iteration. -/
def collectStats : List (Nat × Process) → List (Nat × (Int × String × Int)) →
    List (Nat × (Int × String × Int))
  | [], stats => stats
  | (_, p) :: rest, stats =>
    if p.state = PState.terminated ∧ lookupStat p.pid stats = false then
      collectStats rest (stats ++ [(p.pid, statEntry p)])
    else collectStats rest stats

/-- The micro-tick loop (`for r in range(run_time)`), threading the process
record, the tick counter, the blocked list and the free list.  Each
micro-tick decrements the burst, may block the process (random I/O), and
terminates it when the burst reaches 0 (releasing its memory). -/
def microLoop (o : Oracle) (pid : Nat) :
    Nat → Process → Nat → List Nat → List Ext → Process × Nat × List Nat × List Ext
  | 0, p, tick, blocked, fl => (p, tick, blocked, fl)
  | r + 1, p, tick, blocked, fl =>
    let tick' := tick + 1
    let p1 := { p with burst := p.burst - 1 }
    if o.blockAt tick' then
      ({ p1 with state := .blocked, io_wait := o.ioTicks tick' }, tick',
       blocked ++ [pid], fl)
    else if p1.burst ≤ 0 then
      let p2 := { p1 with state := .terminated, finished_at := some (o.time tick') }
      match p2.memory_block with
      | some b => ({ p2 with memory_block := none }, tick', blocked, free_memory fl (some b))
      | none => (p2, tick', blocked, fl)
    else
      microLoop o pid r p1 tick' blocked fl

/-- The post-quantum dispatch (`# requeue or demote if needed`): a READY or
still-RUNNING-with-burst process is demoted to `min(2, level+1)`; a RUNNING
process with no burst left is terminated and its memory released; BLOCKED
and TERMINATED processes are left as the micro-loop produced them. -/
def postQuantum (o : Oracle) (pid level tick' : Nat) (p' : Process)
    (qs' : List (List Nat)) (fl' : List Ext) :
    Process × List (List Nat) × List Ext :=
  if p'.state = PState.ready then
    ({ p' with last_queue_level := min 2 (level + 1) },
     enqueueAt (min 2 (level + 1)) pid qs', fl')
  else if p'.state = PState.running then
    if 0 < p'.burst then
      ({ p' with state := .ready, last_queue_level := min 2 (level + 1) },
       enqueueAt (min 2 (level + 1)) pid qs', fl')
    else
      let pT := { p' with state := PState.terminated, finished_at := some (o.time tick') }
      match pT.memory_block with
      | some b => ({ pT with memory_block := none }, qs', free_memory fl' (some b))
      | none => (pT, qs', fl')
  else (p', qs', fl')

/-- The dispatch part of one `run_scheduler` loop iteration, after a pid has
been popped from the ready queues: a stale/TERMINATED pid is discarded
(`continue`), otherwise the process runs for up to its level's quantum and
is requeued/demoted/terminated, and stats are collected. -/
def dispatchStep (o : Oracle) (st : Sched) (s1 : Sys) (pid level : Nat)
    (qs' : List (List Nat)) : Sched :=
  let s2 : Sys := { s1 with queues := qs' }
  match lookupTable pid s2.table with
  | none => { st with sys := s2 }
  | some p =>
    if p.state = PState.terminated then { st with sys := s2 }
    else
      let runTime : Nat := (min ((QUANTA.getD level 0 : Nat) : Int) p.burst).toNat
      let res := microLoop o pid runTime { p with state := .running } st.tick
        s2.blocked s2.freeList
      let d := postQuantum o pid level res.2.1 res.1 qs' res.2.2.2
      let table' := tableSet pid d.1 s2.table
      { sys := { freeList := d.2.2, table := table', queues := d.2.1,
                 blocked := res.2.2.1, nextPid := s2.nextPid },
        tick := res.2.1, stats := collectStats table' st.stats }

/-- Outcome of one loop iteration: halt (idle `break`) or continue. -/
inductive StepRes
  | halt (st : Sched)
  | next (st : Sched)
deriving DecidableEq

/-- One iteration of the `run_scheduler` while-loop body: unblock pass, then
either halt (no ready process) or dispatch. -/
def schedStep (o : Oracle) (st : Sched) : StepRes :=
  let s1 := unblock_tick st.sys
  match pickReady s1.queues with
  | none => StepRes.halt { st with sys := s1 }
  | some (pid, level, qs') => StepRes.next (dispatchStep o st s1 pid level qs')

/-- The `while tick < max_ticks` loop, with explicit iteration fuel (the
Python loop always terminates; fuel makes the recursion structural).  The
Bool records whether the loop halted idle (the `break`) rather than by
fuel/ceiling. -/
def schedLoop (o : Oracle) (maxTicks : Nat) : Nat → Sched → Sched × Bool
  | 0, st => (st, false)
  | fuel + 1, st =>
    if st.tick < maxTicks then
      match schedStep o st with
      | StepRes.halt st' => (st', true)
      | StepRes.next st' => schedLoop o maxTicks fuel st'
    else (st, false)

/-- `run_scheduler(max_ticks)` from state `s`. -/
def run_scheduler (o : Oracle) (maxTicks fuel : Nat) (s : Sys) : Sched × Bool :=
  schedLoop o maxTicks fuel { sys := s, tick := 0, stats := [] }

-- Concrete example states (all reachable by the listed operations).
/-- Oracle whose I/O-block event fires at the first global micro-tick. -/
def oracleBlockFirst : Oracle :=
  { blockAt := fun t => t == 1, ioTicks := fun _ => 5, time := fun t => t }

/-- Deterministic oracle: no I/O events. -/
def oracleDet : Oracle :=
  { blockAt := fun _ => false, ioTicks := fun _ => 2, time := fun t => t }

/-- State reached by `create_process("a",5,0)` (at time 0) then
`kill_process(1)` (at time 3): pid 1 is TERMINATED. -/
def termSysEx : Sys := (kill_process 1 3 (create_process "a" 5 0 0 emptySys).2).2

/-- The process record of pid 1 in `termSysEx`. -/
def termProcEx : Process :=
  { pid := 1, name := "a", burst := 5, original_burst := 5, priority := 0,
    state := .terminated, memory_block := none, io_wait := 0, arrived_at := 0,
    finished_at := some 3, last_queue_level := 0 }

/-- State reached by `create_process("a",5,0)` then `block_process(1, 4)`:
pid 1 is BLOCKED and on the blocked list once. -/
def blockedSysEx : Sys := (block_process 1 4 (create_process "a" 5 0 0 emptySys).2).2

/-- The process record of pid 1 in `blockedSysEx`. -/
def blockedProcEx : Process :=
  { pid := 1, name := "a", burst := 5, original_burst := 5, priority := 0,
    state := .blocked, memory_block := none, io_wait := 4, arrived_at := 0,
    finished_at := none, last_queue_level := 0 }

/-- State reached by `create_process("x", 0, 0)` from the initial state. -/
def zeroBurstSys : Sys := (create_process "x" 0 0 0 emptySys).2

/-- The record of the zero-burst process after its first (and only)
dispatch: terminated with burst still 0, finish time taken from the clock at
the unchanged tick 0. -/
def zeroBurstProcFin (o : Oracle) : Process :=
  { pid := 1, name := "x", burst := 0, original_burst := 0, priority := 0,
    state := .terminated, memory_block := none, io_wait := 0, arrived_at := 0,
    finished_at := some (o.time 0), last_queue_level := 0 }

/-- Scheduler state after the first iteration on `zeroBurstSys`. -/
def zeroBurstMid (o : Oracle) : Sched :=
  { sys := { freeList := [(0, MEMORY_SIZE)], table := [(1, zeroBurstProcFin o)],
             queues := [[], [], []], blocked := [], nextPid := 2 },
    tick := 0,
    stats := [(1, statEntry (zeroBurstProcFin o))] }

-- Sum lemmas for the allocator.
theorem sumExt_cons (e : Ext) (l : List Ext) : sumExt (e :: l) = e.2 + sumExt l := by
  simp [sumExt]

theorem sumExt_append (l₁ l₂ : List Ext) :
    sumExt (l₁ ++ l₂) = sumExt l₁ + sumExt l₂ := by
  simp [sumExt]

theorem sumExt_perm {l₁ l₂ : List Ext} (h : l₁.Perm l₂) : sumExt l₁ = sumExt l₂ := by
  exact List.Perm.sum_eq (List.Perm.map _ h)

theorem perm_removeFirst {α : Type} [DecidableEq α] (x : α) (l : List α)
    (h : x ∈ l) : l.Perm (x :: removeFirst x l) := by
  induction l with
  | nil => simp at h
  | cons y ys ih =>
    by_cases hyx : y = x
    · subst hyx
      simp [removeFirst]
    · have hmem : x ∈ ys := by
        cases h with
        | head => exact absurd rfl hyx
        | tail _ h' => exact h'
      have h2 : (y :: ys).Perm (y :: x :: removeFirst x ys) := (ih hmem).cons y
      have h3 := List.Perm.swap x y (removeFirst x ys)
      have h4 := h2.trans h3
      simpa [removeFirst, hyx] using h4

theorem allocLoop_sum (size : Nat) (fl : List Ext) (b : Ext) (fl' : List Ext)
    (h : allocLoop size fl = some (b, fl')) :
    b.2 = size ∧ sumExt fl = sumExt fl' + size := by
  induction fl generalizing fl' with
  | nil => simp [allocLoop] at h
  | cons e rest ih =>
    obtain ⟨start, sz⟩ := e
    simp only [allocLoop] at h
    by_cases hsz : size ≤ sz
    · rw [if_pos hsz] at h
      injection h with h
      injection h with hb hfl
      subst hb
      by_cases hex : sz = size
      · rw [if_pos hex] at hfl
        subst hfl
        subst hex
        refine ⟨rfl, ?_⟩
        rw [sumExt_cons]
        omega
      · rw [if_neg hex] at hfl
        subst hfl
        refine ⟨rfl, ?_⟩
        rw [sumExt_cons, sumExt_cons]
        omega
    · rw [if_neg hsz] at h
      cases hrec : allocLoop size rest with
      | none => rw [hrec] at h; simp at h
      | some r =>
        obtain ⟨b0, fl0⟩ := r
        rw [hrec] at h
        simp only [Option.map_some'] at h
        injection h with h
        injection h with hb hfl
        subst hb
        subst hfl
        obtain ⟨h1, h2⟩ := ih fl0 hrec
        refine ⟨h1, ?_⟩
        rw [sumExt_cons, sumExt_cons]
        omega

theorem allocate_memory_sum (size : Nat) (fl : List Ext) (b : Ext) (fl' : List Ext)
    (h : allocate_memory size fl = (some b, fl')) :
    b.2 = size ∧ sumExt fl = sumExt fl' + size := by
  cases hcase : allocLoop size fl with
  | none => simp [allocate_memory, hcase] at h
  | some r =>
    obtain ⟨b0, fl0⟩ := r
    simp only [allocate_memory, hcase, Prod.mk.injEq, Option.some.injEq] at h
    obtain ⟨h1, h2⟩ := h
    subst h1
    subst h2
    exact allocLoop_sum size fl _ _ hcase

theorem allocate_memory_fail (size : Nat) (fl fl' : List Ext)
    (h : allocate_memory size fl = (none, fl')) : fl' = fl := by
  cases hcase : allocLoop size fl with
  | none =>
    simp only [allocate_memory, hcase, Prod.mk.injEq] at h
    exact h.2.symm
  | some r =>
    obtain ⟨b0, fl0⟩ := r
    simp [allocate_memory, hcase] at h

theorem coalesceLoop_sum (l : List Ext) (c : Ext) :
    sumExt (coalesceLoop c l) = c.2 + sumExt l := by
  induction l generalizing c with
  | nil => simp [coalesceLoop, sumExt]
  | cons e rest ih =>
    obtain ⟨cs, cz⟩ := c
    obtain ⟨s, z⟩ := e
    by_cases hadj : cs + cz = s
    · simp only [coalesceLoop, if_pos hadj, ih (cs, cz + z), sumExt_cons]
      omega
    · simp only [coalesceLoop, if_neg hadj, sumExt_cons, ih (s, z)]

theorem free_memory_sum (fl : List Ext) (b : Ext) :
    sumExt (free_memory fl (some b)) = sumExt fl + b.2 := by
  have hperm : (List.insertionSort extLeP (fl ++ [b])).Perm (fl ++ [b]) :=
    List.perm_insertionSort _ _
  have hsum : sumExt (List.insertionSort extLeP (fl ++ [b])) = sumExt fl + b.2 := by
    rw [sumExt_perm hperm, sumExt_append]
    simp [sumExt]
  cases hsort : List.insertionSort extLeP (fl ++ [b]) with
  | nil =>
    exfalso
    have hmem : b ∈ List.insertionSort extLeP (fl ++ [b]) := hperm.mem_iff.mpr (by simp)
    rw [hsort] at hmem
    exact List.not_mem_nil b hmem
  | cons c t =>
    have heq : free_memory fl (some b) = coalesceLoop c t := by
      simp only [free_memory, hsort]
    rw [heq, coalesceLoop_sum]
    rw [hsort, sumExt_cons] at hsum
    omega

theorem memStep_conserves {s s' : List Ext × List Ext}
    (hstep : MemStep s s')
    (hinv : sumExt s.1 + sumExt s.2 = MEMORY_SIZE) :
    sumExt s'.1 + sumExt s'.2 = MEMORY_SIZE := by
  cases hstep with
  | allocOk size fl al fl' b h =>
    obtain ⟨h1, h2⟩ := allocate_memory_sum size fl b fl' h
    simp only [sumExt_cons] at *
    omega
  | allocFail size fl al fl' h =>
    have := allocate_memory_fail size fl fl' h
    subst this
    exact hinv
  | freeStep fl al b h =>
    have hfree := free_memory_sum fl b
    have herase : sumExt al = b.2 + sumExt (removeFirst b al) := by
      rw [sumExt_perm (perm_removeFirst b al h), sumExt_cons]
    simp only at *
    omega

/-- C1 — Memory conservation: from the initial state (all of `MEMORY_SIZE`
free, nothing allocated), after any sequence of `allocate_memory` /
`free_memory` calls in which each freed extent was previously allocated and
not yet freed, the sum of free-list extent sizes plus the sum of outstanding
allocated extent sizes equals `MEMORY_SIZE`. -/
theorem memory_conservation (s : List Ext × List Ext)
    (h : Relation.ReflTransGen MemStep memInit s) :
    sumExt s.1 + sumExt s.2 = MEMORY_SIZE := by
  induction h with
  | refl => simp [memInit, sumExt, MEMORY_SIZE]
  | tail _ hstep ih => exact memStep_conserves hstep ih

/-- Witness for C1: the concrete state reached by one successful
`allocate_memory 100` from the initial state satisfies conservation. -/
theorem memory_conservation_witness :
    sumExt [(100, 924)] + sumExt [((0 : Nat), (100 : Nat))] = MEMORY_SIZE :=
  memory_conservation ([(100, 924)], [(0, 100)])
    (Relation.ReflTransGen.single
      (MemStep.allocOk 100 [(0, MEMORY_SIZE)] [] [(100, 924)] (0, 100) (by decide)))

theorem allocLoop_spec (size : Nat) (fl : List Ext) :
    (∀ b fl', allocLoop size fl = some (b, fl') →
       ∃ l1 s z l2, fl = l1 ++ (s, z) :: l2 ∧ (∀ e ∈ l1, e.2 < size) ∧ size ≤ z ∧
         b = (s, size) ∧
         fl' = l1 ++ (if z = size then l2 else (s + size, z - size) :: l2))
    ∧ (allocLoop size fl = none → ∀ e ∈ fl, e.2 < size) := by
  induction fl with
  | nil =>
    constructor
    · intro b fl' h
      simp [allocLoop] at h
    · intro _ e he
      simp at he
  | cons hd rest ih =>
    obtain ⟨s0, z0⟩ := hd
    by_cases hsz : size ≤ z0
    · constructor
      · intro b fl' h
        simp only [allocLoop, if_pos hsz] at h
        injection h with h
        injection h with hb hfl
        refine ⟨[], s0, z0, rest, by simp, by simp, hsz, hb.symm, by simp [hfl.symm]⟩
      · intro h
        simp [allocLoop, if_pos hsz] at h
    · constructor
      · intro b fl' h
        simp only [allocLoop, if_neg hsz] at h
        cases hrec : allocLoop size rest with
        | none => rw [hrec] at h; simp at h
        | some r =>
          obtain ⟨b0, fl0⟩ := r
          rw [hrec] at h
          simp only [Option.map_some'] at h
          injection h with h
          injection h with hb hfl
          obtain ⟨l1, s, z, l2, hfl0, hsmall, hzge, hb0, hfl0'⟩ := ih.1 b0 fl0 hrec
          refine ⟨(s0, z0) :: l1, s, z, l2, by simp [hfl0], ?_, hzge, by rw [← hb, hb0], ?_⟩
          · intro e he
            cases he with
            | head => omega
            | tail _ h' => exact hsmall e h'
          · rw [← hfl, hfl0']
            simp
      · intro h
        simp only [allocLoop, if_neg hsz] at h
        rw [Option.map_eq_none'] at h
        intro e he
        cases he with
        | head => omega
        | tail _ h' => exact ih.2 h e h'

/-- C4 — First-fit allocation semantics: on success, `allocate_memory size`
splits the free list as `l1 ++ (s, z) :: l2` where every extent of `l1` is
too small and `z ≥ size` (the first fitting extent in list order, which is
ascending start order since the free list is kept sorted); the returned block
is `(s, size)` — exactly the requested size, never smaller; on an exact match
the extent is removed, otherwise shrunk by `size` from the front; on failure
the free list is unchanged and no extent was large enough. -/
theorem allocate_first_fit (size : Nat) (fl : List Ext) :
    (∀ b fl', allocate_memory size fl = (some b, fl') →
       b.2 = size ∧
       ∃ l1 s z l2, fl = l1 ++ (s, z) :: l2 ∧ (∀ e ∈ l1, e.2 < size) ∧ size ≤ z ∧
         b = (s, size) ∧
         fl' = l1 ++ (if z = size then l2 else (s + size, z - size) :: l2))
    ∧ (∀ fl', allocate_memory size fl = (none, fl') →
       fl' = fl ∧ ∀ e ∈ fl, e.2 < size) := by
  constructor
  · intro b fl' h
    cases hcase : allocLoop size fl with
    | none => simp [allocate_memory, hcase] at h
    | some r =>
      obtain ⟨b0, fl0⟩ := r
      simp only [allocate_memory, hcase, Prod.mk.injEq, Option.some.injEq] at h
      obtain ⟨h1, h2⟩ := h
      subst h1
      subst h2
      obtain ⟨l1, s, z, l2, hdec, hsmall, hzge, hb, hfl'⟩ := (allocLoop_spec size fl).1 _ _ hcase
      exact ⟨by rw [hb], l1, s, z, l2, hdec, hsmall, hzge, hb, hfl'⟩
  · intro fl' h
    cases hcase : allocLoop size fl with
    | none =>
      simp only [allocate_memory, hcase, Prod.mk.injEq] at h
      exact ⟨h.2.symm, (allocLoop_spec size fl).2 hcase⟩
    | some r =>
      obtain ⟨b0, fl0⟩ := r
      simp [allocate_memory, hcase] at h

/-- Witness for C4: `allocate_memory 4 [(0,2),(10,8)]` succeeds with block
`(10,4)`, skipping the too-small first extent and shrinking the second. -/
theorem allocate_first_fit_witness :
    ((10 : Nat), (4 : Nat)).2 = 4 ∧
    ∃ l1 s z l2, ([(0, 2), (10, 8)] : List Ext) = l1 ++ (s, z) :: l2 ∧
      (∀ e ∈ l1, e.2 < 4) ∧ 4 ≤ z ∧ ((10, 4) : Ext) = (s, 4) ∧
      ([(0, 2), (14, 4)] : List Ext) =
        l1 ++ (if z = 4 then l2 else (s + 4, z - 4) :: l2) :=
  (allocate_first_fit 4 [(0, 2), (10, 8)]).1 (10, 4) [(0, 2), (14, 4)] (by decide)

/-- C8 counterexample: freeing an extent that is already in the free list is
NOT a no-op — `free_memory` does no allocated-check, it unconditionally
appends, so the free list gains a duplicate extent. -/
theorem free_invalid_counterexample :
    free_memory [(0, 10)] (some (0, 10)) = [(0, 10), (0, 10)] ∧
    free_memory [(0, 10)] (some (0, 10)) ≠ [(0, 10)] := by decide

/-- C8 amended: `free_memory None` leaves the free list unchanged, but
`free_memory` performs no not-currently-allocated check: any non-`None`
extent is unconditionally inserted (and coalesced), growing the total free
size by the extent's size — so freeing an extent already in the free list
changes the list. -/
theorem free_none_noop_amended (fl : List Ext) (b : Ext) :
    free_memory fl none = fl ∧
    sumExt (free_memory fl (some b)) = sumExt fl + b.2 :=
  ⟨rfl, free_memory_sum fl b⟩

theorem extDisj_symm {a b : Ext} (h : extDisj a b) : extDisj b a := h.symm

theorem covers_perm {l1 l2 : List Ext} (h : l1.Perm l2) (x : Nat) :
    covers l1 x ↔ covers l2 x := by
  unfold covers
  constructor
  · rintro ⟨e, he, hx⟩
    exact ⟨e, h.mem_iff.mp he, hx⟩
  · rintro ⟨e, he, hx⟩
    exact ⟨e, h.mem_iff.mpr he, hx⟩

theorem covers_cons (e : Ext) (l : List Ext) (x : Nat) :
    covers (e :: l) x ↔ (e.1 ≤ x ∧ x < e.1 + e.2) ∨ covers l x := by
  simp [covers]

theorem coalesceLoop_covers (l : List Ext) : ∀ c x,
    covers (coalesceLoop c l) x ↔ covers (c :: l) x := by
  induction l with
  | nil => intro c x; rfl
  | cons e rest ih =>
    intro c x
    obtain ⟨cs, cz⟩ := c
    obtain ⟨s, z⟩ := e
    by_cases hadj : cs + cz = s
    · rw [coalesceLoop, if_pos hadj, ih (cs, cz + z) x,
        covers_cons, covers_cons, covers_cons]
      constructor
      · rintro (h | h)
        · simp only at h
          by_cases hx : x < cs + cz
          · exact Or.inl ⟨h.1, hx⟩
          · exact Or.inr (Or.inl ⟨by omega, by omega⟩)
        · exact Or.inr (Or.inr h)
      · rintro (h | h | h)
        · exact Or.inl ⟨h.1, by omega⟩
        · exact Or.inl ⟨by omega, by omega⟩
        · exact Or.inr h
    · rw [coalesceLoop, if_neg hadj]
      simp only [covers_cons, ih]

theorem coalesceLoop_canonical (l : List Ext) : ∀ c,
    List.Pairwise gapLe (c :: l) → (∀ e ∈ c :: l, 0 < e.2) →
    canonical (coalesceLoop c l) ∧ ∀ e ∈ coalesceLoop c l, c.1 ≤ e.1 := by
  induction l with
  | nil =>
    intro c _ hpos
    obtain ⟨cs, cz⟩ := c
    refine ⟨⟨by simp [coalesceLoop], ?_⟩, ?_⟩
    · intro e he
      simp only [coalesceLoop, List.mem_singleton] at he
      subst he
      exact hpos (cs, cz) (by simp)
    · intro e he
      simp only [coalesceLoop, List.mem_singleton] at he
      subst he
      exact Nat.le_refl _
  | cons hd rest ih =>
    intro c hpair hpos
    obtain ⟨cs, cz⟩ := c
    obtain ⟨s, z⟩ := hd
    have hgap : cs + cz ≤ s := by
      have := List.rel_of_pairwise_cons hpair (List.mem_cons_self _ _)
      exact this
    have hpairTail : List.Pairwise gapLe ((s, z) :: rest) := hpair.of_cons
    have hposTail : ∀ e ∈ (s, z) :: rest, 0 < e.2 := by
      intro e he
      exact hpos e (List.mem_cons_of_mem _ he)
    by_cases hadj : cs + cz = s
    · rw [coalesceLoop, if_pos hadj]
      have hpair' : List.Pairwise gapLe ((cs, cz + z) :: rest) := by
        constructor
        · intro e he
          have hrel := List.rel_of_pairwise_cons hpairTail he
          unfold gapLe at *
          simp only at *
          omega
        · exact hpairTail.of_cons
      have hpos' : ∀ e ∈ (cs, cz + z) :: rest, 0 < e.2 := by
        intro e he
        cases he with
        | head =>
          have := hposTail (s, z) (by simp)
          simp only at *
          omega
        | tail _ h' => exact hposTail e (List.mem_cons_of_mem _ h')
      obtain ⟨hcan, hstart⟩ := ih (cs, cz + z) hpair' hpos'
      exact ⟨hcan, hstart⟩
    · rw [coalesceLoop, if_neg hadj]
      obtain ⟨hcan, hstart⟩ := ih (s, z) hpairTail hposTail
      have hlt : cs + cz < s := by omega
      refine ⟨⟨?_, ?_⟩, ?_⟩
      · constructor
        · intro e he
          have := hstart e he
          unfold gapLt
          simp only at *
          omega
        · exact hcan.1
      · intro e he
        cases he with
        | head => exact hpos (cs, cz) (by simp)
        | tail _ h' => exact hcan.2 e h'
      · intro e he
        cases he with
        | head => exact Nat.le_refl _
        | tail _ h' =>
          have := hstart e h'
          simp only at *
          omega

theorem canonical_pairwise_disj {l : List Ext} (h : canonical l) :
    List.Pairwise extDisj l :=
  h.1.imp (fun hab => Or.inl (Nat.le_of_lt hab))

theorem sorted_disj_gapLe {l : List Ext}
    (hsort : List.Pairwise extLeP l) (hdisj : List.Pairwise extDisj l)
    (hpos : ∀ e ∈ l, 0 < e.2) : List.Pairwise gapLe l := by
  have hand := hsort.and hdisj
  refine hand.imp_of_mem ?_
  intro a b ha hb hr
  obtain ⟨hle, hd⟩ := hr
  have hpa := hpos a ha
  have hpb := hpos b hb
  unfold extLeP at hle
  unfold extDisj at hd
  unfold gapLe
  omega

theorem free_memory_canonical (fl : List Ext) (b : Ext)
    (hdisj : List.Pairwise extDisj (fl ++ [b]))
    (hpos : ∀ e ∈ fl ++ [b], 0 < e.2) :
    canonical (free_memory fl (some b)) := by
  have hperm : (List.insertionSort extLeP (fl ++ [b])).Perm (fl ++ [b]) :=
    List.perm_insertionSort _ _
  have hsort : List.Pairwise extLeP (List.insertionSort extLeP (fl ++ [b])) :=
    List.sorted_insertionSort extLeP (fl ++ [b])
  have hdisj' : List.Pairwise extDisj (List.insertionSort extLeP (fl ++ [b])) :=
    (List.Perm.pairwise_iff (fun h => extDisj_symm h) hperm).mpr hdisj
  have hpos' : ∀ e ∈ List.insertionSort extLeP (fl ++ [b]), 0 < e.2 := by
    intro e he
    exact hpos e (hperm.mem_iff.mp he)
  have hgap := sorted_disj_gapLe hsort hdisj' hpos'
  cases hcase : List.insertionSort extLeP (fl ++ [b]) with
  | nil =>
    exfalso
    have hmem : b ∈ List.insertionSort extLeP (fl ++ [b]) := hperm.mem_iff.mpr (by simp)
    rw [hcase] at hmem
    exact List.not_mem_nil b hmem
  | cons c t =>
    have heq : free_memory fl (some b) = coalesceLoop c t := by
      simp only [free_memory, hcase]
    rw [heq]
    rw [hcase] at hgap hpos'
    exact (coalesceLoop_canonical t c hgap hpos').1

theorem free_memory_covers (fl : List Ext) (b : Ext) (x : Nat) :
    covers (free_memory fl (some b)) x ↔
      covers fl x ∨ (b.1 ≤ x ∧ x < b.1 + b.2) := by
  have hperm : (List.insertionSort extLeP (fl ++ [b])).Perm (fl ++ [b]) :=
    List.perm_insertionSort _ _
  cases hcase : List.insertionSort extLeP (fl ++ [b]) with
  | nil =>
    exfalso
    have hmem : b ∈ List.insertionSort extLeP (fl ++ [b]) := hperm.mem_iff.mpr (by simp)
    rw [hcase] at hmem
    exact List.not_mem_nil b hmem
  | cons c t =>
    have heq : free_memory fl (some b) = coalesceLoop c t := by
      simp only [free_memory, hcase]
    rw [heq, coalesceLoop_covers t c x, ← hcase,
      covers_perm (List.perm_insertionSort extLeP (fl ++ [b])) x]
    unfold covers
    constructor
    · rintro ⟨e, he, hx⟩
      rcases List.mem_append.mp he with h | h
      · exact Or.inl ⟨e, h, hx⟩
      · simp at h
        subst h
        exact Or.inr hx
    · rintro (⟨e, he, hx⟩ | hx)
      · exact ⟨e, List.mem_append_left _ he, hx⟩
      · exact ⟨b, List.mem_append_right _ (by simp), hx⟩

theorem canonical_covers_ge {s z : Nat} {t : List Ext}
    (h : canonical ((s, z) :: t)) {x : Nat}
    (hc : covers ((s, z) :: t) x) : s ≤ x := by
  rw [covers_cons] at hc
  rcases hc with hx | ⟨e, he, hx⟩
  · exact hx.1
  · have := List.rel_of_pairwise_cons h.1 he
    unfold gapLt at this
    simp only at *
    omega

theorem canonical_not_covers_end {s z : Nat} {t : List Ext}
    (h : canonical ((s, z) :: t)) : ¬ covers ((s, z) :: t) (s + z) := by
  rw [covers_cons]
  rintro (hx | ⟨e, he, hx⟩)
  · simp only at hx
    omega
  · have := List.rel_of_pairwise_cons h.1 he
    unfold gapLt at this
    simp only at *
    omega

theorem canonical_covers_tail {s z : Nat} {t : List Ext}
    (h : canonical ((s, z) :: t)) (x : Nat) :
    covers t x ↔ covers ((s, z) :: t) x ∧ s + z < x := by
  constructor
  · intro hc
    obtain ⟨e, he, hx⟩ := hc
    have := List.rel_of_pairwise_cons h.1 he
    unfold gapLt at this
    refine ⟨(covers_cons _ _ _).mpr (Or.inr ⟨e, he, hx⟩), by omega⟩
  · rintro ⟨hc, hgt⟩
    rcases (covers_cons _ _ _).mp hc with hx | hx
    · simp only at hx
      omega
    · exact hx

theorem canonical_tail {e : Ext} {t : List Ext} (h : canonical (e :: t)) :
    canonical t :=
  ⟨h.1.of_cons, fun e' he' => h.2 e' (List.mem_cons_of_mem _ he')⟩

theorem canonical_ext (l1 : List Ext) : ∀ l2, canonical l1 → canonical l2 →
    (∀ x, covers l1 x ↔ covers l2 x) → l1 = l2 := by
  induction l1 with
  | nil =>
    intro l2 _ h2 hcov
    cases l2 with
    | nil => rfl
    | cons e t =>
      exfalso
      have hpos := h2.2 e (by simp)
      have hc : covers (e :: t) e.1 :=
        (covers_cons _ _ _).mpr (Or.inl ⟨Nat.le_refl _, by omega⟩)
      have := (hcov e.1).mpr hc
      obtain ⟨e', he', _⟩ := this
      exact List.not_mem_nil e' he'
  | cons e1 t1 ih =>
    intro l2 h1 h2 hcov
    obtain ⟨s1, z1⟩ := e1
    cases l2 with
    | nil =>
      exfalso
      have hpos := h1.2 (s1, z1) (by simp)
      have hc : covers ((s1, z1) :: t1) s1 :=
        (covers_cons _ _ _).mpr (Or.inl ⟨Nat.le_refl _, by simp; omega⟩)
      have := (hcov s1).mp hc
      obtain ⟨e', he', _⟩ := this
      exact List.not_mem_nil e' he'
    | cons e2 t2 =>
      obtain ⟨s2, z2⟩ := e2
      have hz1 : 0 < z1 := h1.2 (s1, z1) (by simp)
      have hz2 : 0 < z2 := h2.2 (s2, z2) (by simp)
      have hc1 : covers ((s1, z1) :: t1) s1 :=
        (covers_cons _ _ _).mpr (Or.inl ⟨Nat.le_refl _, by simp; omega⟩)
      have hc2 : covers ((s2, z2) :: t2) s2 :=
        (covers_cons _ _ _).mpr (Or.inl ⟨Nat.le_refl _, by simp; omega⟩)
      have hs21 : s2 ≤ s1 := canonical_covers_ge h2 ((hcov s1).mp hc1)
      have hs12 : s1 ≤ s2 := canonical_covers_ge h1 ((hcov s2).mpr hc2)
      have hs : s1 = s2 := Nat.le_antisymm hs12 hs21
      subst hs
      have hz : z1 = z2 := by
        rcases Nat.lt_trichotomy z1 z2 with hlt | heq | hgt
        · exfalso
          have hcv : covers ((s1, z2) :: t2) (s1 + z1) :=
            (covers_cons _ _ _).mpr (Or.inl ⟨by omega, by simp; omega⟩)
          exact canonical_not_covers_end h1 ((hcov (s1 + z1)).mpr hcv)
        · exact heq
        · exfalso
          have hcv : covers ((s1, z1) :: t1) (s1 + z2) :=
            (covers_cons _ _ _).mpr (Or.inl ⟨by omega, by simp; omega⟩)
          exact canonical_not_covers_end h2 ((hcov (s1 + z2)).mp hcv)
      subst hz
      have htcov : ∀ x, covers t1 x ↔ covers t2 x := by
        intro x
        rw [canonical_covers_tail h1 x, canonical_covers_tail h2 x, hcov x]
      rw [ih t2 (canonical_tail h1) (canonical_tail h2) htcov]

theorem canonical_pairwise_sep {l : List Ext} (h : canonical l) :
    ∀ a ∈ l, ∀ b ∈ l, a ≠ b → gapLt a b ∨ gapLt b a := by
  have hp : List.Pairwise (fun a b => gapLt a b ∨ gapLt b a) l :=
    h.1.imp (fun hab => Or.inl hab)
  intro a ha b hb hne
  exact List.Pairwise.forall (fun _ _ hr => hr.symm) hp ha hb hne

theorem canonical_interval (l : List Ext) (h : canonical l) (u v : Nat)
    (huv : u < v) (hcov : ∀ x, u ≤ x → x < v → covers l x) :
    ∃ e ∈ l, e.1 ≤ u ∧ v ≤ e.1 + e.2 := by
  obtain ⟨e, he, hx⟩ := hcov u (Nat.le_refl u) huv
  refine ⟨e, he, hx.1, ?_⟩
  by_contra hend
  push_neg at hend
  have hxe : u ≤ e.1 + e.2 := by omega
  obtain ⟨e', he', hx'⟩ := hcov (e.1 + e.2) (by omega) (by omega)
  by_cases heq : e' = e
  · subst heq
    omega
  · rcases canonical_pairwise_sep h e he e' he' (fun hh => heq hh.symm) with hlt | hlt
    · unfold gapLt at hlt
      omega
    · unfold gapLt at hlt
      omega

theorem not_extDisj_common {e b : Ext} (he : 0 < e.2) (hb : 0 < b.2)
    (h : ¬ extDisj e b) :
    ∃ x, (e.1 ≤ x ∧ x < e.1 + e.2) ∧ (b.1 ≤ x ∧ x < b.1 + b.2) := by
  unfold extDisj at h
  refine ⟨max e.1 b.1, ?_, ?_⟩ <;> omega

theorem free_memory_disj_of_disj (fl : List Ext) (a c : Ext) (hc : 0 < c.2)
    (hdisjC : ∀ e ∈ fl, extDisj e c) (hac : extDisj a c)
    (hcan : canonical (free_memory fl (some a))) :
    ∀ e ∈ free_memory fl (some a), extDisj e c := by
  intro e he
  by_contra hnd
  have hepos : 0 < e.2 := hcan.2 e he
  obtain ⟨x, hxe, hxc⟩ := not_extDisj_common hepos hc hnd
  have hcv : covers (free_memory fl (some a)) x := ⟨e, he, hxe⟩
  rw [free_memory_covers] at hcv
  rcases hcv with ⟨e', he', hx'⟩ | hx'
  · have := hdisjC e' he'
    unfold extDisj at this
    omega
  · unfold extDisj at hac
    omega

/-- C5 counterexample: with free list `[(0,5)]` and adjacent allocated extents
`(5,5)` and `(10,5)`, freeing both yields `[(0,15)]`, which does not contain
a single merged extent equal to their union `(5,10)` — the merge absorbs the
neighbouring free extent as well. -/
theorem coalesce_union_counterexample :
    free_memory (free_memory [(0, 5)] (some (5, 5))) (some (10, 5)) = [(0, 15)] ∧
    ¬ (((5 : Nat), (10 : Nat)) ∈
        free_memory (free_memory [(0, 5)] (some (5, 5))) (some (10, 5))) := by
  decide

/-- C5 amended — Coalescing order-independence: for any canonical free list
and positive adjacent extents `a`, `b` (with `a.1 + a.2 = b.1`) disjoint from
the free list, freeing both in either order yields the same free list; in it
the union of `a` and `b` lies inside a single extent; and whenever no free
extent is adjacent to the union (none ends at `a`'s start, none starts at
`b`'s end), that extent is exactly the union `(a.1, a.2 + b.2)`. -/
theorem free_adjacent_commute (fl : List Ext) (a b : Ext)
    (hfl : canonical fl) (ha : 0 < a.2) (hb : 0 < b.2)
    (hadj : a.1 + a.2 = b.1)
    (hdisjA : ∀ e ∈ fl, extDisj e a) (hdisjB : ∀ e ∈ fl, extDisj e b) :
    free_memory (free_memory fl (some a)) (some b) =
      free_memory (free_memory fl (some b)) (some a) ∧
    (∃ e ∈ free_memory (free_memory fl (some a)) (some b),
      e.1 ≤ a.1 ∧ b.1 + b.2 ≤ e.1 + e.2) ∧
    ((∀ e ∈ fl, e.1 + e.2 ≠ a.1) → (∀ e ∈ fl, e.1 ≠ b.1 + b.2) →
      (a.1, a.2 + b.2) ∈ free_memory (free_memory fl (some a)) (some b)) := by
  have hflpos : ∀ e ∈ fl, 0 < e.2 := hfl.2
  have hdisjfl : List.Pairwise extDisj fl := canonical_pairwise_disj hfl
  have hab : extDisj a b := Or.inl (Nat.le_of_eq hadj)
  have happA : List.Pairwise extDisj (fl ++ [a]) := by
    rw [List.pairwise_append]
    refine ⟨hdisjfl, by simp, ?_⟩
    intro e he a' ha'
    simp at ha'
    subst ha'
    exact hdisjA e he
  have happB : List.Pairwise extDisj (fl ++ [b]) := by
    rw [List.pairwise_append]
    refine ⟨hdisjfl, by simp, ?_⟩
    intro e he b' hb'
    simp at hb'
    subst hb'
    exact hdisjB e he
  have hposA : ∀ e ∈ fl ++ [a], 0 < e.2 := by
    intro e he
    rcases List.mem_append.mp he with h | h
    · exact hflpos e h
    · simp at h; subst h; exact ha
  have hposB : ∀ e ∈ fl ++ [b], 0 < e.2 := by
    intro e he
    rcases List.mem_append.mp he with h | h
    · exact hflpos e h
    · simp at h; subst h; exact hb
  have hcanA : canonical (free_memory fl (some a)) := free_memory_canonical fl a happA hposA
  have hcanB : canonical (free_memory fl (some b)) := free_memory_canonical fl b happB hposB
  have hdisjAB : ∀ e ∈ free_memory fl (some a), extDisj e b :=
    free_memory_disj_of_disj fl a b hb hdisjB hab hcanA
  have hdisjBA : ∀ e ∈ free_memory fl (some b), extDisj e a :=
    free_memory_disj_of_disj fl b a ha hdisjA (extDisj_symm hab) hcanB
  have happAB : List.Pairwise extDisj (free_memory fl (some a) ++ [b]) := by
    rw [List.pairwise_append]
    refine ⟨canonical_pairwise_disj hcanA, by simp, ?_⟩
    intro e he b' hb'
    simp at hb'
    subst hb'
    exact hdisjAB e he
  have happBA : List.Pairwise extDisj (free_memory fl (some b) ++ [a]) := by
    rw [List.pairwise_append]
    refine ⟨canonical_pairwise_disj hcanB, by simp, ?_⟩
    intro e he a' ha'
    simp at ha'
    subst ha'
    exact hdisjBA e he
  have hposAB : ∀ e ∈ free_memory fl (some a) ++ [b], 0 < e.2 := by
    intro e he
    rcases List.mem_append.mp he with h | h
    · exact hcanA.2 e h
    · simp at h; subst h; exact hb
  have hposBA : ∀ e ∈ free_memory fl (some b) ++ [a], 0 < e.2 := by
    intro e he
    rcases List.mem_append.mp he with h | h
    · exact hcanB.2 e h
    · simp at h; subst h; exact ha
  have hcanAB : canonical (free_memory (free_memory fl (some a)) (some b)) :=
    free_memory_canonical _ b happAB hposAB
  have hcanBA : canonical (free_memory (free_memory fl (some b)) (some a)) :=
    free_memory_canonical _ a happBA hposBA
  have hcov : ∀ x, covers (free_memory (free_memory fl (some a)) (some b)) x ↔
      covers (free_memory (free_memory fl (some b)) (some a)) x := by
    intro x
    rw [free_memory_covers, free_memory_covers, free_memory_covers, free_memory_covers]
    tauto
  have heq := canonical_ext _ _ hcanAB hcanBA hcov
  have hcontain : ∃ e ∈ free_memory (free_memory fl (some a)) (some b),
      e.1 ≤ a.1 ∧ b.1 + b.2 ≤ e.1 + e.2 := by
    apply canonical_interval _ hcanAB a.1 (b.1 + b.2) (by omega)
    intro x hx1 hx2
    rw [free_memory_covers, free_memory_covers]
    by_cases hxa : x < b.1
    · exact Or.inl (Or.inr ⟨hx1, by omega⟩)
    · exact Or.inr ⟨by omega, hx2⟩
  refine ⟨heq, hcontain, ?_⟩
  intro hnadjL hnadjR
  have hcovL : ∀ x, covers (free_memory (free_memory fl (some a)) (some b)) x ↔
      covers fl x ∨ (a.1 ≤ x ∧ x < b.1 + b.2) := by
    intro x
    rw [free_memory_covers, free_memory_covers]
    constructor
    · rintro ((h | h) | h)
      · exact Or.inl h
      · exact Or.inr ⟨h.1, by omega⟩
      · exact Or.inr ⟨by omega, by omega⟩
    · rintro (h | h)
      · exact Or.inl (Or.inl h)
      · by_cases hx : x < b.1
        · exact Or.inl (Or.inr ⟨h.1, by omega⟩)
        · exact Or.inr ⟨by omega, h.2⟩
  have hncR : ¬ covers (free_memory (free_memory fl (some a)) (some b)) (b.1 + b.2) := by
    rw [hcovL]
    rintro (⟨e', he', hx⟩ | hx)
    · rcases hdisjB e' he' with hdb | hdb
      · omega
      · exact hnadjR e' he' (by omega)
    · omega
  have hncL : 0 < a.1 → ¬ covers (free_memory (free_memory fl (some a)) (some b)) (a.1 - 1) := by
    intro hpos
    rw [hcovL]
    rintro (⟨e', he', hx⟩ | hx)
    · rcases hdisjA e' he' with hda | hda
      · exact hnadjL e' he' (by omega)
      · omega
    · omega
  obtain ⟨e, heL, he1, he2⟩ := hcontain
  have he1' : e.1 = a.1 := by
    by_contra hne
    have hpos : 0 < a.1 := by omega
    exact hncL hpos ⟨e, heL, by omega, by omega⟩
  have he2' : e.1 + e.2 = b.1 + b.2 := by
    by_contra hne
    exact hncR ⟨e, heL, by omega, by omega⟩
  have heun : e = (a.1, a.2 + b.2) := by
    obtain ⟨e1, e2⟩ := e
    simp only at he1' he2'
    have h1 : e1 = a.1 := he1'
    have h2 : e2 = a.2 + b.2 := by omega
    rw [h1, h2]
  rw [← heun]
  exact heL

/-- Witness for C5's amended theorem: freeing the adjacent extents `(0,5)` and
`(5,5)` into the empty free list, in either order, yields the same list with
one extent covering their union; since nothing is adjacent to the union, the
result contains exactly the union extent `(0, 10)`. -/
theorem free_adjacent_commute_witness :
    free_memory (free_memory [] (some ((0 : Nat), (5 : Nat)))) (some (5, 5)) =
      free_memory (free_memory [] (some (5, 5))) (some (0, 5)) ∧
    (∃ e ∈ free_memory (free_memory [] (some ((0 : Nat), (5 : Nat)))) (some (5, 5)),
      e.1 ≤ (0, 5).1 ∧ (5, 5).1 + (5, 5).2 ≤ e.1 + e.2) ∧
    ((0 : Nat), (10 : Nat)) ∈
      free_memory (free_memory [] (some ((0 : Nat), (5 : Nat)))) (some (5, 5)) :=
  have h := free_adjacent_commute [] (0, 5) (5, 5)
    ⟨List.Pairwise.nil, by simp⟩ (by decide) (by decide) (by decide)
    (by simp) (by simp)
  ⟨h.1, h.2.1, h.2.2 (by simp) (by simp)⟩

-- Lemmas about removeFirst and pickReady.
theorem removeFirst_of_not_mem {α : Type} [DecidableEq α] {x : α} {l : List α}
    (h : x ∉ l) : removeFirst x l = l := by
  induction l with
  | nil => rfl
  | cons y ys ih =>
    have hyx : ¬ y = x := by
      intro he
      subst he
      exact h (List.mem_cons_self _ _)
    rw [removeFirst, if_neg hyx, ih (fun hm => h (List.mem_cons_of_mem _ hm))]

theorem not_mem_removeFirst_of_count {x : Nat} {l : List Nat}
    (h : List.count x l ≤ 1) : x ∉ removeFirst x l := by
  induction l with
  | nil => simp [removeFirst]
  | cons y ys ih =>
    by_cases hyx : y = x
    · subst hyx
      rw [List.count_cons_self] at h
      rw [removeFirst, if_pos rfl]
      intro hmem
      have hpos := List.count_pos_iff.mpr hmem
      omega
    · rw [removeFirst, if_neg hyx]
      intro hmem
      cases hmem with
      | head => exact hyx rfl
      | tail _ hm =>
        have hne : x ≠ y := fun he => hyx he.symm
        rw [List.count_cons_of_ne hne] at h
        exact ih h hm

theorem getD_mem_of_lt {l : List (List Nat)} {i : Nat} (h : i < l.length) :
    l.getD i [] ∈ l := by
  induction l generalizing i with
  | nil => simp at h
  | cons a t ih =>
    cases i with
    | zero => simp
    | succ j =>
      simp only [List.getD_cons_succ]
      exact List.mem_cons_of_mem _ (ih (by simpa using h))

theorem pickReady_spec (qs : List (List Nat)) : ∀ pid level qs',
    pickReady qs = some (pid, level, qs') →
    level < qs.length ∧ (∀ i, i < level → qs.getD i [] = []) ∧
    ∃ rest, qs.getD level [] = pid :: rest ∧ qs' = qs.set level rest := by
  induction qs with
  | nil =>
    intro pid level qs' h
    simp [pickReady] at h
  | cons q qt ih =>
    intro pid level qs' h
    cases q with
    | nil =>
      simp only [pickReady, Option.map_eq_some'] at h
      obtain ⟨⟨rp, rl, rq⟩, hr, heq⟩ := h
      have heq' : (rp, rl + 1, ([] : List Nat) :: rq) = (pid, level, qs') := heq
      injection heq' with h1 h2
      injection h2 with h2a h2b
      subst h1
      subst h2a
      subst h2b
      obtain ⟨hlen, hemp, rest0, hget, hset⟩ := ih rp rl rq hr
      refine ⟨by simpa using hlen, ?_, rest0, ?_, ?_⟩
      · intro i hi
        cases i with
        | zero => rfl
        | succ j =>
          simp only [List.getD_cons_succ]
          exact hemp j (by omega)
      · simpa using hget
      · simp [hset]
    | cons p0 q0 =>
      injection h with h
      injection h with h1 h2
      injection h2 with h2a h2b
      subst h1
      subst h2a
      subst h2b
      refine ⟨by simp, ?_, q0, rfl, rfl⟩
      intro i hi
      omega

theorem pickReady_none_iff (qs : List (List Nat)) :
    pickReady qs = none ↔ ∀ q ∈ qs, q = [] := by
  induction qs with
  | nil => simp [pickReady]
  | cons q qt ih =>
    cases q with
    | nil => simp [pickReady, Option.map_eq_none', ih]
    | cons p0 q0 => simp [pickReady]

/-- C6 — MLFQ priority selection: the scheduler's selection scan pops the
head of the non-empty ready queue with the lowest index (level 0 checked
first); whenever any queue `i` is non-empty, the selected level is at most
`i`, so of two READY processes at different levels the one at the
numerically lower level is always chosen first, regardless of insertion
order; and the scan is empty exactly when all ready queues are empty. -/
theorem mlfq_priority_selection (qs : List (List Nat)) :
    (∀ pid level qs', pickReady qs = some (pid, level, qs') →
       level < qs.length ∧ (∀ i, i < level → qs.getD i [] = []) ∧
       ∃ rest, qs.getD level [] = pid :: rest ∧ qs' = qs.set level rest)
    ∧ (∀ i, qs.getD i [] ≠ [] →
       ∃ pid level qs', pickReady qs = some (pid, level, qs') ∧ level ≤ i)
    ∧ (pickReady qs = none ↔ ∀ q ∈ qs, q = []) := by
  refine ⟨pickReady_spec qs, ?_, pickReady_none_iff qs⟩
  intro i hi
  cases hpick : pickReady qs with
  | none =>
    exfalso
    apply hi
    by_cases hlen : i < qs.length
    · exact (pickReady_none_iff qs).mp hpick _ (getD_mem_of_lt hlen)
    · exact List.getD_eq_default _ _ (by omega)
  | some r =>
    obtain ⟨pid, level, qs'⟩ := r
    refine ⟨pid, level, qs', rfl, ?_⟩
    by_contra hgt
    push_neg at hgt
    exact hi ((pickReady_spec qs pid level qs' hpick).2.1 i hgt)

/-- Witness for C6: with queues `[[], [3,4], [5]]` the scan selects pid 3 at
level 1 (the lowest-index non-empty queue), and a non-empty queue at index 1
guarantees a selection at level at most 1. -/
theorem mlfq_priority_selection_witness :
    ((1 : Nat) < ([[], [3, 4], [5]] : List (List Nat)).length ∧
      (∀ i, i < 1 → ([[], [3, 4], [5]] : List (List Nat)).getD i [] = []) ∧
      ∃ rest, ([[], [3, 4], [5]] : List (List Nat)).getD 1 [] = 3 :: rest ∧
        ([[], [4], [5]] : List (List Nat)) = ([[], [3, 4], [5]] : List (List Nat)).set 1 rest)
    ∧ (∃ pid level qs', pickReady [[], [3, 4], [5]] = some (pid, level, qs') ∧ level ≤ 1) :=
  ⟨(mlfq_priority_selection [[], [3, 4], [5]]).1 3 1 [[], [4], [5]] (by decide),
   (mlfq_priority_selection [[], [3, 4], [5]]).2.1 1 (by decide)⟩

/-- C2 counterexample: a reachable run (`create_process("a",10,0)`, then
`run_scheduler` with an oracle that raises the I/O event at the first
micro-tick) in which the scheduler halts idle at tick 1 — far below the
ceiling of 100 — while the blocked set is still non-empty.  The scheduler
does NOT keep ticking while only blocked work remains. -/
theorem scheduler_halt_counterexample :
    (run_scheduler oracleBlockFirst 100 5 (create_process "a" 10 0 0 emptySys).2).2 = true ∧
    (run_scheduler oracleBlockFirst 100 5 (create_process "a" 10 0 0 emptySys).2).1.tick = 1 ∧
    (run_scheduler oracleBlockFirst 100 5 (create_process "a" 10 0 0 emptySys).2).1.sys.blocked
      = [1] ∧
    (run_scheduler oracleBlockFirst 100 5 (create_process "a" 10 0 0 emptySys).2).1.sys.blocked
      ≠ [] := by
  decide

/-- C2 amended — Scheduler idle-halt condition: an iteration of
`run_scheduler` halts (idle) exactly when, after the per-iteration unblock
pass, all ready queues are empty; the blocked set plays no part in the halt
decision and may be non-empty at the halt. -/
theorem scheduler_halt_amended (o : Oracle) (st : Sched) :
    (∃ st', schedStep o st = StepRes.halt st') ↔
      ∀ q ∈ (unblock_tick st.sys).queues, q = [] := by
  rw [← pickReady_none_iff]
  simp only [schedStep]
  cases hpick : pickReady (unblock_tick st.sys).queues with
  | none => simp [hpick]
  | some r =>
    obtain ⟨pid, level, qs'⟩ := r
    simp [hpick]

/-- C3 counterexample: after `create_process("a",5,0)` and `kill_process(1)`,
pid 1 is TERMINATED yet still sits in ready queue 0 — `kill_process` never
removes pids from the ready queues. -/
theorem terminated_in_queue_counterexample :
    ((kill_process 1 3 (create_process "a" 5 0 0 emptySys).2).2.queues.getD 0 [] = [1]) ∧
    ((lookupTable 1 (kill_process 1 3 (create_process "a" 5 0 0 emptySys).2).2.table).map
        (fun p => p.state) = some PState.terminated) := by
  decide

/-- C3 amended — TERMINATED pids are excluded from the blocked list and are
never dispatched, but may linger in ready queues: (1) `kill_process` removes
the pid from the blocked list (completely, when it occurred at most once);
(2) `block_process` refuses TERMINATED processes, changing nothing; (3) when
the selection scan pops a pid whose process is TERMINATED, the scheduler
discards it without dispatching it — only the queues change. -/
theorem terminated_exclusion_amended :
    (∀ (s : Sys) (pid now : Nat) (p : Process),
       lookupTable pid s.table = some p → List.count pid s.blocked ≤ 1 →
       pid ∉ (kill_process pid now s).2.blocked)
    ∧ (∀ (s : Sys) (pid : Nat) (io : Int) (p : Process),
       lookupTable pid s.table = some p → p.state = PState.terminated →
       block_process pid io s = (false, s))
    ∧ (∀ (o : Oracle) (st : Sched) (pid level : Nat) (qs' : List (List Nat)) (p : Process),
       pickReady (unblock_tick st.sys).queues = some (pid, level, qs') →
       lookupTable pid (unblock_tick st.sys).table = some p →
       p.state = PState.terminated →
       schedStep o st =
         StepRes.next { st with sys := { unblock_tick st.sys with queues := qs' } }) := by
  refine ⟨?_, ?_, ?_⟩
  · intro s pid now p hp hcount
    simp only [kill_process, hp]
    cases hmb : p.memory_block with
    | some b =>
      simp only [hmb]
      exact not_mem_removeFirst_of_count hcount
    | none =>
      simp only [hmb]
      exact not_mem_removeFirst_of_count hcount
  · intro s pid io p hp hterm
    simp [block_process, hp, hterm]
  · intro o st pid level qs' p hpick hp hterm
    simp only [schedStep, hpick, dispatchStep, hp, hterm, if_pos]

/-- Witness for C3's amended theorem: at the reachable TERMINATED state
`termSysEx`, killing again leaves pid 1 off the blocked list, blocking fails
without change, and the scheduler discards pid 1 from queue 0 without
dispatching it. -/
theorem terminated_exclusion_amended_witness :
    (1 ∉ (kill_process 1 7 termSysEx).2.blocked)
    ∧ block_process 1 3 termSysEx = (false, termSysEx)
    ∧ schedStep oracleDet { sys := termSysEx, tick := 0, stats := [] } =
        StepRes.next { sys := { unblock_tick termSysEx with queues := [[], [], []] },
                       tick := 0, stats := [] } :=
  ⟨terminated_exclusion_amended.1 termSysEx 1 7 termProcEx (by decide) (by decide),
   terminated_exclusion_amended.2.1 termSysEx 1 3 termProcEx (by decide) (by decide),
   terminated_exclusion_amended.2.2 oracleDet { sys := termSysEx, tick := 0, stats := [] }
     1 0 [[], [], []] termProcEx (by decide) (by decide) (by decide)⟩

/-- C7 counterexample: killing the already-TERMINATED pid 1 (finish time 3)
again at time 7 returns True but overwrites the finish timestamp with 7 —
the process record (and hence the system state) is modified. -/
theorem kill_idempotent_counterexample :
    (kill_process 1 7 termSysEx).1 = true ∧
    (lookupTable 1 (kill_process 1 7 termSysEx).2.table).map (fun p => p.finished_at) =
      some (some 7) ∧
    (lookupTable 1 termSysEx.table).map (fun p => p.finished_at) = some (some 3) ∧
    (kill_process 1 7 termSysEx).2 ≠ termSysEx := by
  decide

/-- C7 amended — Kill on a TERMINATED process returns True and frees no
memory and leaves the blocked list unchanged (given the invariants that a
TERMINATED process holds no block and is not blocked), but it is not a
complete no-op: the process's finish timestamp is overwritten with the
current time. -/
theorem kill_terminated_amended (s : Sys) (pid now : Nat) (p : Process)
    (hp : lookupTable pid s.table = some p)
    (hterm : p.state = PState.terminated)
    (hmem : p.memory_block = none)
    (hnb : pid ∉ s.blocked) :
    kill_process pid now s =
      (true, { s with table := tableSet pid { p with finished_at := some now } s.table }) := by
  obtain ⟨pid0, name0, burst0, ob0, pr0, st0, mb0, io0, ar0, fin0, lql0⟩ := p
  simp only at hterm hmem
  subst hterm
  subst hmem
  simp only [kill_process, hp]
  rw [removeFirst_of_not_mem hnb]

/-- Witness for C7's amended theorem at the reachable state `termSysEx`. -/
theorem kill_terminated_amended_witness :
    kill_process 1 7 termSysEx =
      (true, { termSysEx with
               table := tableSet 1 { termProcEx with finished_at := some 7 } termSysEx.table }) :=
  kill_terminated_amended termSysEx 1 7 termProcEx (by decide) (by decide) (by decide) (by decide)

/-- C9 counterexample: blocking pid 1 twice appends it to the blocked list a
second time — after the double block the pid is present twice, not once. -/
theorem double_block_counterexample :
    (block_process 1 3 blockedSysEx).1 = true ∧
    (block_process 1 3 blockedSysEx).2.blocked = [1, 1] ∧
    List.count 1 (block_process 1 3 blockedSysEx).2.blocked ≠ 1 := by
  decide

/-- C9 amended — Double block succeeds and resets the wait counter (last
write wins), leaving the queues, other processes and the rest of the record
unchanged; but it does NOT leave the blocked list's membership unchanged:
the pid is appended again, so its multiplicity in the blocked list grows. -/
theorem double_block_amended (s : Sys) (pid : Nat) (io : Int) (p : Process)
    (hp : lookupTable pid s.table = some p)
    (hb : p.state = PState.blocked) :
    block_process pid io s =
      (true, { s with table := tableSet pid { p with io_wait := io } s.table,
                      blocked := s.blocked ++ [pid] }) := by
  obtain ⟨pid0, name0, burst0, ob0, pr0, st0, mb0, io0, ar0, fin0, lql0⟩ := p
  simp only at hb
  subst hb
  simp [block_process, hp]

/-- Witness for C9's amended theorem at the reachable state `blockedSysEx`. -/
theorem double_block_amended_witness :
    block_process 1 3 blockedSysEx =
      (true, { blockedSysEx with
               table := tableSet 1 { blockedProcEx with io_wait := 3 } blockedSysEx.table,
               blocked := blockedSysEx.blocked ++ [1] }) :=
  double_block_amended blockedSysEx 1 3 blockedProcEx (by decide) (by decide)

/-- C10 — Zero-burst handling: from the state whose only process is
`create_process("x", 0, 0)`, for ANY oracle the very first scheduler
dispatch terminates the process without executing a single micro-tick (the
tick counter stays 0 and the burst stays 0, never negative), records it in
the statistics; and the full `run_scheduler` (any ceiling ≥ 1) halts idle
with pid 1 in the returned statistics and final burst 0. -/
theorem zero_burst_terminates (o : Oracle) (maxTicks : Nat) (h : 1 ≤ maxTicks) :
    (∃ st', schedStep o { sys := zeroBurstSys, tick := 0, stats := [] } = StepRes.next st' ∧
       (lookupTable 1 st'.sys.table).map (fun p => (p.state, p.burst)) =
         some (PState.terminated, 0) ∧
       lookupStat 1 st'.stats = true ∧ st'.tick = 0)
    ∧ (run_scheduler o maxTicks 2 zeroBurstSys).2 = true
    ∧ lookupStat 1 (run_scheduler o maxTicks 2 zeroBurstSys).1.stats = true
    ∧ (lookupTable 1 (run_scheduler o maxTicks 2 zeroBurstSys).1.sys.table).map
        (fun p => p.burst) = some 0 := by
  have h1 : schedStep o { sys := zeroBurstSys, tick := 0, stats := [] } =
      StepRes.next (zeroBurstMid o) := rfl
  have h2 : schedStep o (zeroBurstMid o) = StepRes.halt (zeroBurstMid o) := rfl
  have hlt1 : ({ sys := zeroBurstSys, tick := 0, stats := [] } : Sched).tick < maxTicks := h
  have hlt2 : (zeroBurstMid o).tick < maxTicks := h
  have hrun : run_scheduler o maxTicks 2 zeroBurstSys = (zeroBurstMid o, true) := by
    show schedLoop o maxTicks (1 + 1) { sys := zeroBurstSys, tick := 0, stats := [] } =
      (zeroBurstMid o, true)
    rw [schedLoop, if_pos hlt1, h1]
    show schedLoop o maxTicks (0 + 1) (zeroBurstMid o) = (zeroBurstMid o, true)
    rw [schedLoop, if_pos hlt2, h2]
  refine ⟨⟨zeroBurstMid o, h1, rfl, rfl, rfl⟩, ?_, ?_, ?_⟩ <;> rw [hrun] <;> rfl

/-- Witness for C10 at ceiling 10 with the deterministic oracle. -/
theorem zero_burst_terminates_witness :
    (∃ st', schedStep oracleDet { sys := zeroBurstSys, tick := 0, stats := [] } =
        StepRes.next st' ∧
       (lookupTable 1 st'.sys.table).map (fun p => (p.state, p.burst)) =
         some (PState.terminated, 0) ∧
       lookupStat 1 st'.stats = true ∧ st'.tick = 0)
    ∧ (run_scheduler oracleDet 10 2 zeroBurstSys).2 = true
    ∧ lookupStat 1 (run_scheduler oracleDet 10 2 zeroBurstSys).1.stats = true
    ∧ (lookupTable 1 (run_scheduler oracleDet 10 2 zeroBurstSys).1.sys.table).map
        (fun p => p.burst) = some 0 :=
  zero_burst_terminates oracleDet 10 (by decide)

end OsSim

